import Mathlib

/-!
# Verification of the split virtqueue engine (hw/dataplane/vring.c)

Shallow embedding of the split-virtqueue engine of hw/dataplane/vring.c:
the descriptor-chain walker `vring_pop` / `get_indirect`, the used-ring
publisher `vring_push`, and the notification controller
`vring_should_notify`, together with theorems settling the behavioural
claims about them.

Modelling conventions:
* 16-bit fields (`avail.idx`, `last_avail_idx`, `last_used_idx`,
  `signalled_used`, ring entries) are `Nat`s reduced `% 65536` at the
  points where the C code reads them into `uint16_t` values or performs
  16-bit wraparound arithmetic.
* The guest-writable shared memory (descriptor table, avail ring, the
  bytes an indirect descriptor points at) is a read-only environment
  `Guest`; the Memory Translator (`hostmem_lookup`) is the external
  capability of the spec, abstracted as a success oracle `Guest.lookup`.
* Feature negotiation enters only through the two boolean tests the code
  performs on `vdev->guest_features` (notify-on-empty, event-index);
  those tests are passed as booleans.
* Every `return -EFAULT` in the chain walker is preceded in the source by
  `vring->broken = true` and changes nothing else, so the walker is a
  pure function returning `ChainRes`, and `vring_pop` maps its `.fault`
  result to setting `broken`.
-/

/-- One virtio ring descriptor (`struct vring_desc`): guest-physical
address, byte length, the three flag bits the engine tests
(`VRING_DESC_F_NEXT`, `VRING_DESC_F_WRITE`, `VRING_DESC_F_INDIRECT`),
and the 16-bit link to the next descriptor. 16 bytes in memory. -/
structure VRingDesc where
  addr : Nat
  len : Nat
  fNext : Bool
  fWrite : Bool
  fIndirect : Bool
  next : Nat
deriving DecidableEq, Repr

/-- The guest-controlled environment one engine call executes against:
the descriptor table (`vring->vr.desc`), the avail ring header and
entries, the guest-published used-event value, guest memory viewed as
descriptors at byte addresses (for indirect tables), and the Memory
Translator success oracle (`hostmem_lookup (addr, len, is_write)`). -/
structure Guest where
  desc : Nat → VRingDesc
  availIdx : Nat
  availRing : Nat → Nat
  availNoInterrupt : Bool
  usedEvent : Nat
  mem : Nat → VRingDesc
  lookup : Nat → Nat → Bool → Bool

/-- Engine-owned queue state (`struct Vring` plus the used ring it
writes): capacity `num`, the sticky `broken` flag, the consumption and
completion cursors, the event-index baseline, and the host-written used
ring (entry function, published `idx`, published avail-event). -/
structure Vring where
  num : Nat
  broken : Bool
  last_avail_idx : Nat
  last_used_idx : Nat
  signalled_used : Nat
  signalled_used_valid : Bool
  usedRing : Nat → Nat × Nat
  usedIdx : Nat
  availEvent : Nat

/-- One resolved buffer span (`struct iovec` as filled by the walker):
the guest address and length handed to the translator, plus the
write-intent bit passed as `hostmem_lookup`'s third argument. -/
structure Iovec where
  base : Nat
  len : Nat
  isWrite : Bool
deriving DecidableEq, Repr

/-- Result of walking (part of) a descriptor chain: success with the
accumulated spans and read/write counts, `-ENOBUFS` (caller's iovec
array exhausted, non-fatal), or `-EFAULT` (fatal, `broken` gets set). -/
inductive ChainRes where
  | ok (iov : List Iovec) (out_num in_num : Nat)
  | nobufs
  | fault
deriving DecidableEq, Repr

/-- Result of `vring_pop`: a resolved request (head index, spans,
counts), `-EAGAIN` (no work), `-ENOBUFS`, or `-EFAULT`. -/
inductive PopResult where
  | ok (head : Nat) (iov : List Iovec) (out_num in_num : Nat)
  | again
  | nobufs
  | fault
deriving DecidableEq, Repr

/-- The loop of `get_indirect` (vring.c lines 142-207): reads the
`found`-th 16-byte descriptor at `tblAddr + found * 16`, faults on
translation failure, on `++found > count`, on a nested indirect flag, on
payload translation failure and on an out-descriptor after an
in-descriptor; returns `-ENOBUFS` when the caller's iovec array is full;
otherwise appends the resolved span and continues while the entry's
NEXT flag is set. -/
def giLoop (g : Guest) (tblAddr count cap : Nat) (iov : List Iovec)
    (out_num in_num found : Nat) : ChainRes :=
  if ¬ g.lookup (tblAddr + found * 16) 16 false then .fault
  else
    let desc := g.mem (tblAddr + found * 16)
    if h : count < found + 1 then .fault
    else if desc.fIndirect then .fault
    else if cap ≤ iov.length then .nobufs
    else if ¬ g.lookup desc.addr desc.len desc.fWrite then .fault
    else
      let iov2 := iov ++ [⟨desc.addr, desc.len, desc.fWrite⟩]
      if desc.fWrite then
        if desc.fNext then
          giLoop g tblAddr count cap iov2 out_num (in_num + 1) (found + 1)
        else .ok iov2 out_num (in_num + 1)
      else
        if in_num ≠ 0 then .fault
        else if desc.fNext then
          giLoop g tblAddr count cap iov2 (out_num + 1) in_num (found + 1)
        else .ok iov2 (out_num + 1) in_num
termination_by count + 1 - found
decreasing_by all_goals omega

/-- Function `get_indirect` (vring.c lines 116-209): rejects an indirect table
whose byte length is not a multiple of the 16-byte descriptor size or
implies more than 65536 entries, then walks it sequentially with
`giLoop`. -/
def get_indirect (g : Guest) (cap : Nat) (iov : List Iovec)
    (out_num in_num : Nat) (indirect : VRingDesc) : ChainRes :=
  if indirect.len % 16 ≠ 0 then .fault
  else if 65536 < indirect.len / 16 then .fault
  else giLoop g indirect.addr (indirect.len / 16) cap iov out_num in_num 0

/-- The descriptor-chain loop of `vring_pop` (vring.c lines 274-334):
faults on an out-of-range index `i`, on `++found > num`, on translation
failure and on an out-descriptor after an in-descriptor; an INDIRECT
descriptor is handed to `get_indirect` and, because the source's
`continue` skips `i = desc.next`, a successful indirect step re-enters
the loop with the same `i` when the indirect descriptor carries NEXT;
returns `-ENOBUFS` when the caller's iovec array is full. -/
def popLoop (g : Guest) (num cap : Nat) (i found : Nat) (iov : List Iovec)
    (out_num in_num : Nat) : ChainRes :=
  if num ≤ i then .fault
  else if h : num < found + 1 then .fault
  else
    let desc := g.desc i
    if desc.fIndirect then
      match get_indirect g cap iov out_num in_num desc with
      | .fault => .fault
      | .nobufs => .nobufs
      | .ok iov2 o2 n2 =>
        if desc.fNext then popLoop g num cap i (found + 1) iov2 o2 n2
        else .ok iov2 o2 n2
    else
      if cap ≤ iov.length then .nobufs
      else if ¬ g.lookup desc.addr desc.len desc.fWrite then .fault
      else
        let iov2 := iov ++ [⟨desc.addr, desc.len, desc.fWrite⟩]
        if desc.fWrite then
          if desc.fNext then
            popLoop g num cap desc.next (found + 1) iov2 out_num (in_num + 1)
          else .ok iov2 out_num (in_num + 1)
        else
          if in_num ≠ 0 then .fault
          else if desc.fNext then
            popLoop g num cap desc.next (found + 1) iov2 (out_num + 1) in_num
          else .ok iov2 (out_num + 1) in_num
termination_by num + 1 - found
decreasing_by all_goals omega

/-- Ghost-instrumented copy of `giLoop`: the second component counts
the table entries accepted for processing, i.e. the iterations whose
`++found > count` check passed — exactly the entries the source's
`found` counter admits. The result component is proved equal to
`giLoop` and the count is proved bounded by the table's declared entry
count. -/
def giLoopV (g : Guest) (tblAddr count cap : Nat) (iov : List Iovec)
    (out_num in_num found : Nat) : ChainRes × Nat :=
  if ¬ g.lookup (tblAddr + found * 16) 16 false then (.fault, 0)
  else
    let desc := g.mem (tblAddr + found * 16)
    if h : count < found + 1 then (.fault, 0)
    else if desc.fIndirect then (.fault, 1)
    else if cap ≤ iov.length then (.nobufs, 1)
    else if ¬ g.lookup desc.addr desc.len desc.fWrite then (.fault, 1)
    else
      let iov2 := iov ++ [⟨desc.addr, desc.len, desc.fWrite⟩]
      if desc.fWrite then
        if desc.fNext then
          let r := giLoopV g tblAddr count cap iov2 out_num (in_num + 1)
            (found + 1)
          (r.1, r.2 + 1)
        else (.ok iov2 out_num (in_num + 1), 1)
      else
        if in_num ≠ 0 then (.fault, 1)
        else if desc.fNext then
          let r := giLoopV g tblAddr count cap iov2 (out_num + 1) in_num
            (found + 1)
          (r.1, r.2 + 1)
        else (.ok iov2 (out_num + 1) in_num, 1)
termination_by count + 1 - found
decreasing_by all_goals omega

/-- Ghost-instrumented copy of `popLoop`: the second component counts
the direct descriptors accepted for processing, i.e. the iterations
whose range and `++found > num` checks passed — exactly the visits the
source's `found` counter admits (entries inside an indirect table are
counted separately by `giLoopV`). The result component is proved equal
to `popLoop` and the count is proved bounded by `num`. -/
def popLoopV (g : Guest) (num cap : Nat) (i found : Nat) (iov : List Iovec)
    (out_num in_num : Nat) : ChainRes × Nat :=
  if num ≤ i then (.fault, 0)
  else if h : num < found + 1 then (.fault, 0)
  else
    let desc := g.desc i
    if desc.fIndirect then
      match get_indirect g cap iov out_num in_num desc with
      | .fault => (.fault, 1)
      | .nobufs => (.nobufs, 1)
      | .ok iov2 o2 n2 =>
        if desc.fNext then
          let r := popLoopV g num cap i (found + 1) iov2 o2 n2
          (r.1, r.2 + 1)
        else (.ok iov2 o2 n2, 1)
    else
      if cap ≤ iov.length then (.nobufs, 1)
      else if ¬ g.lookup desc.addr desc.len desc.fWrite then (.fault, 1)
      else
        let iov2 := iov ++ [⟨desc.addr, desc.len, desc.fWrite⟩]
        if desc.fWrite then
          if desc.fNext then
            let r := popLoopV g num cap desc.next (found + 1) iov2 out_num
              (in_num + 1)
            (r.1, r.2 + 1)
          else (.ok iov2 out_num (in_num + 1), 1)
        else
          if in_num ≠ 0 then (.fault, 1)
          else if desc.fNext then
            let r := popLoopV g num cap desc.next (found + 1) iov2
              (out_num + 1) in_num
            (r.1, r.2 + 1)
          else (.ok iov2 (out_num + 1) in_num, 1)
termination_by num + 1 - found
decreasing_by all_goals omega

/-- Function `vring_pop` after the broken check and the avail-index plausibility
check (vring.c lines 247-338): `-EAGAIN` when nothing is pending, fatal
when the advertised head is out of range, otherwise (after publishing
the avail-event value under event-index) the chain walk; on success
`last_avail_idx` advances by one (16-bit). -/
def vring_pop_body (eventIdx : Bool) (g : Guest) (v : Vring) (cap : Nat) :
    PopResult × Vring :=
  let last_avail_idx := v.last_avail_idx % 65536
  let avail_idx := g.availIdx % 65536
  if avail_idx = last_avail_idx then (.again, v)
  else
    let head := g.availRing (last_avail_idx % v.num) % 65536
    if v.num ≤ head then (.fault, { v with broken := true })
    else
      let v1 := if eventIdx then { v with availEvent := avail_idx } else v
      match popLoop g v.num cap head 0 [] 0 0 with
      | .fault => (.fault, { v1 with broken := true })
      | .nobufs => (.nobufs, v1)
      | .ok iov o n =>
        (.ok head iov o n,
         { v1 with last_avail_idx := (last_avail_idx + 1) % 65536 })

/-- Function `vring_pop` (vring.c lines 222-339): refuses a broken queue, faults
(setting `broken`) when the guest's published `avail.idx` is more than
`num` ahead of `last_avail_idx` in 16-bit arithmetic, and otherwise
defers to `vring_pop_body`. -/
def vring_pop (eventIdx : Bool) (g : Guest) (v : Vring) (cap : Nat) :
    PopResult × Vring :=
  if v.broken then (.fault, v)
  else
    let last_avail_idx := v.last_avail_idx % 65536
    let avail_idx := g.availIdx % 65536
    if v.num < (avail_idx + 65536 - last_avail_idx) % 65536 then
      (.fault, { v with broken := true })
    else vring_pop_body eventIdx g v cap

/-- Reinterpret the low 16 bits of a `Nat` as a signed 16-bit value,
as the C cast `(int16_t)` does. -/
def toInt16 (n : Nat) : Int :=
  if n % 65536 < 32768 then (n % 65536 : Int) else (n % 65536 : Int) - 65536

/-- Function `vring_push` (vring.c lines 345-368): a no-op on a broken queue;
otherwise writes `(head, len)` into `used.ring[last_used_idx % num]`,
publishes `used.idx = ++last_used_idx` (16-bit), and clears
`signalled_used_valid` exactly when `(int16_t)(new - signalled_used)`
is less than one. -/
def vring_push (v : Vring) (head len : Nat) : Vring :=
  if v.broken then v
  else
    let slot := (v.last_used_idx % 65536) % v.num
    let nw := (v.last_used_idx % 65536 + 1) % 65536
    let v1 : Vring :=
      { v with
        usedRing := fun j => if j = slot then (head, len) else v.usedRing j,
        last_used_idx := nw,
        usedIdx := nw }
    if toInt16 (nw + 65536 - v.signalled_used % 65536) < 1 then
      { v1 with signalled_used_valid := false }
    else v1

/-- Modelled from the spec: `vring_need_event` is defined in
hw/dataplane/vring.h, which is not among the source files; per the spec
(§4.4) it is the wraparound-safe check whether the guest-published event
index falls strictly within the interval given by the old signalled
value and the new used index, i.e. the standard
`(u16)(new - event - 1) < (u16)(new - old)` comparison on 16-bit
values. -/
def vring_need_event (event nw old : Nat) : Bool :=
  (nw + 131072 - event % 65536 - 1) % 65536 < (nw + 65536 - old) % 65536

/-- Function `vring_should_notify` (vring.c lines 86-113): notify-on-empty
short-circuit first; without event-index, the avail-ring suppression
flag decides; with event-index, the baseline `signalled_used` is
re-established from `last_used_idx` and marked valid, the call notifies
unconditionally when the baseline was invalid, and otherwise decides by
`vring_need_event`. -/
def vring_should_notify (notifyOnEmpty eventIdx : Bool) (g : Guest)
    (v : Vring) : Bool × Vring :=
  if notifyOnEmpty = true ∧ g.availIdx % 65536 = v.last_avail_idx % 65536 then
    (true, v)
  else if eventIdx = false then (!g.availNoInterrupt, v)
  else
    let old := v.signalled_used % 65536
    let valid := v.signalled_used_valid
    let nw := v.last_used_idx % 65536
    let v1 : Vring :=
      { v with signalled_used := nw, signalled_used_valid := true }
    if valid = false then (true, v1)
    else (vring_need_event (g.usedEvent % 65536) nw old, v1)

/-- Witness for `should_notify_on_empty`: a concrete queue with the
suppression flag set, event-index on and a valid baseline still
notifies when the ring is empty. -/
def wGuestC3 : Guest :=
  { desc := fun _ => ⟨0, 0, false, false, false, 0⟩
    availIdx := 5, availRing := fun _ => 0, availNoInterrupt := true
    usedEvent := 0, mem := fun _ => ⟨0, 0, false, false, false, 0⟩
    lookup := fun _ _ _ => true }

/-- Concrete queue state used by the `should_notify_on_empty` witness. -/
def wVringC3 : Vring :=
  { num := 4, broken := false, last_avail_idx := 5, last_used_idx := 9
    signalled_used := 2, signalled_used_valid := true
    usedRing := fun _ => (0, 0), usedIdx := 9, availEvent := 0 }

/-- Concrete queue state with invalid baseline for the
`should_notify_invalid_baseline` witness. -/
def wVringC8 : Vring :=
  { num := 4, broken := false, last_avail_idx := 3, last_used_idx := 7
    signalled_used := 2, signalled_used_valid := false
    usedRing := fun _ => (0, 0), usedIdx := 7, availEvent := 0 }

/-- Concrete queue state (valid baseline, suppressing guest) for the
`should_notify_writes_baseline` witness: the call returns `false`
there yet still rewrites the baseline. -/
def wVringC10 : Vring :=
  { num := 4, broken := false, last_avail_idx := 3, last_used_idx := 7
    signalled_used := 7, signalled_used_valid := true
    usedRing := fun _ => (0, 0), usedIdx := 7, availEvent := 0 }

/-- Concrete queue state for the `push_round_trip` witness. -/
def wVringC7 : Vring :=
  { num := 4, broken := false, last_avail_idx := 1, last_used_idx := 6
    signalled_used := 6, signalled_used_valid := true
    usedRing := fun _ => (0, 0), usedIdx := 6, availEvent := 0 }

/-- Queue state exhibiting the C2 counterexample: valid baseline equal
to the current used cursor, so the next push advances past it by one. -/
def wVringC2 : Vring :=
  { num := 4, broken := false, last_avail_idx := 0, last_used_idx := 0
    signalled_used := 0, signalled_used_valid := true
    usedRing := fun _ => (0, 0), usedIdx := 0, availEvent := 0 }

/-- Queue state for the second `push_signalled_valid_rule` witness
instance: a push
advancing the cursor to one past the baseline leaves the flag set, and
a push landing exactly on the baseline clears it. -/
def wVringC2b : Vring :=
  { num := 4, broken := false, last_avail_idx := 0, last_used_idx := 0
    signalled_used := 1, signalled_used_valid := true
    usedRing := fun _ => (0, 0), usedIdx := 0, availEvent := 0 }

/-- Guest for the `pop_nobufs_no_commit` witness: one pending
single-descriptor request while the caller supplies zero iovec slots. -/
def wGuestC4 : Guest :=
  { desc := fun _ => ⟨4096, 512, false, true, false, 0⟩
    availIdx := 1, availRing := fun _ => 2, availNoInterrupt := false
    usedEvent := 0, mem := fun _ => ⟨0, 0, false, false, false, 0⟩
    lookup := fun _ _ _ => true }

/-- Queue state for the `pop_nobufs_no_commit` witness. -/
def wVringC4 : Vring :=
  { num := 4, broken := false, last_avail_idx := 0, last_used_idx := 0
    signalled_used := 0, signalled_used_valid := false
    usedRing := fun _ => (0, 0), usedIdx := 0, availEvent := 0 }

/-- Guest claiming three pending entries for a 2-entry queue (the
over-advance case of the `pop_avail_index_check` witness). -/
def wGuestC5a : Guest :=
  { desc := fun _ => ⟨0, 0, false, false, false, 0⟩
    availIdx := 3, availRing := fun _ => 0, availNoInterrupt := false
    usedEvent := 0, mem := fun _ => ⟨0, 0, false, false, false, 0⟩
    lookup := fun _ _ _ => true }

/-- Guest claiming one pending entry (the plausible case of the
`pop_avail_index_check` witness). -/
def wGuestC5b : Guest :=
  { desc := fun _ => ⟨0, 0, false, false, false, 0⟩
    availIdx := 1, availRing := fun _ => 0, availNoInterrupt := false
    usedEvent := 0, mem := fun _ => ⟨0, 0, false, false, false, 0⟩
    lookup := fun _ _ _ => true }

/-- Queue state (capacity 2, nothing consumed yet) for the
`pop_avail_index_check` witness. -/
def wVringC5 : Vring :=
  { num := 2, broken := false, last_avail_idx := 0, last_used_idx := 0
    signalled_used := 0, signalled_used_valid := false
    usedRing := fun _ => (0, 0), usedIdx := 0, availEvent := 0 }

/-- Guest for the `pop_bounded_walk` witness: descriptors 0 and 1 form
a cycle (each points at the other with NEXT set) while descriptors 2
and 3 are terminal — a cycle among a strict subset of a 4-entry
table. -/
def wGuestC1 : Guest :=
  { desc := fun j => if j = 0 then ⟨4096, 64, true, true, false, 1⟩
      else if j = 1 then ⟨8192, 64, true, true, false, 0⟩
      else ⟨12288, 64, false, true, false, 0⟩
    availIdx := 1, availRing := fun _ => 0, availNoInterrupt := false
    usedEvent := 0
    mem := fun a => ⟨8192 + a, 32, true, false, false, 0⟩
    lookup := fun _ _ _ => true }

/-- Queue state (capacity 4) for the `pop_bounded_walk` witness. -/
def wVringC1 : Vring :=
  { num := 4, broken := false, last_avail_idx := 0, last_used_idx := 0
    signalled_used := 0, signalled_used_valid := false
    usedRing := fun _ => (0, 0), usedIdx := 0, availEvent := 0 }

/-- A span list together with the walker's two counters is partitioned
when it is a block of device-readable spans followed by a block of
device-writable spans, the blocks having exactly `out_num` resp.
`in_num` elements. -/
def PartitionedRW (iov : List Iovec) (out_num in_num : Nat) : Prop :=
  ∃ a b, iov = a ++ b ∧ (∀ s ∈ a, s.isWrite = false) ∧
    (∀ s ∈ b, s.isWrite = true) ∧ a.length = out_num ∧ b.length = in_num

/-- Guest for the C6 counterexample and witness: descriptor 0 is
device-readable, descriptor 1 is device-writable with NEXT chaining to
the readable one (an order violation); indirect-table entries are
device-readable. -/
def wGuestC6 : Guest :=
  { desc := fun j => if j = 1 then ⟨4096, 512, true, true, false, 0⟩
      else ⟨8192, 64, false, false, false, 0⟩
    availIdx := 1, availRing := fun _ => 1, availNoInterrupt := false
    usedEvent := 0, mem := fun _ => ⟨200, 16, false, false, false, 0⟩
    lookup := fun _ _ _ => true }

/-- Queue state (4 descriptors, nothing consumed) for the C6
counterexample and witness. -/
def wVringC6 : Vring :=
  { num := 4, broken := false, last_avail_idx := 0, last_used_idx := 0
    signalled_used := 0, signalled_used_valid := false
    usedRing := fun _ => (0, 0), usedIdx := 0, availEvent := 0 }

/-- Guest with a single device-writable descriptor (head 2) for the
success part of the C6 witness. -/
def wGuestC6ok : Guest :=
  { desc := fun _ => ⟨4096, 512, false, true, false, 0⟩
    availIdx := 1, availRing := fun _ => 2, availNoInterrupt := false
    usedEvent := 0, mem := fun _ => ⟨0, 0, false, false, false, 0⟩
    lookup := fun _ _ _ => true }

/-- Guest for the `get_indirect_sequential` witness: a two-entry
indirect table at base 0 — entry 0 (bytes 0..15) device-readable with
NEXT, entry 1 (bytes 16..31) device-writable without NEXT. -/
def wGuestC9 : Guest :=
  { desc := fun _ => ⟨0, 0, false, false, false, 0⟩
    availIdx := 0, availRing := fun _ => 0, availNoInterrupt := false
    usedEvent := 0
    mem := fun a => if a < 16 then ⟨100, 32, true, false, false, 7⟩
      else ⟨200, 64, false, true, false, 9⟩
    lookup := fun _ _ _ => true }

/-- Indirect descriptor (32-byte table at base 0) for the
`get_indirect_sequential` witness. -/
def wIndC9 : VRingDesc := ⟨0, 32, false, false, true, 0⟩

/-! ## Notification controller theorems -/

/-- C3: whenever the notify-on-empty feature test passes and the avail
ring appears empty (`avail.idx` equals `last_avail_idx` as 16-bit
values), `vring_should_notify` returns `true`, independently of the
avail-ring suppression flag and of the event-index feature and
baseline state. -/
theorem should_notify_on_empty (notifyOnEmpty eventIdx : Bool) (g : Guest)
    (v : Vring) (hne : notifyOnEmpty = true)
    (hempty : g.availIdx % 65536 = v.last_avail_idx % 65536) :
    (vring_should_notify notifyOnEmpty eventIdx g v).1 = true := by
  simp [vring_should_notify, hne, hempty]

/-- Theorem `should_notify_on_empty` applied at a concrete input. -/
theorem should_notify_on_empty_witness :
    (vring_should_notify true true wGuestC3 wVringC3).1 = true :=
  should_notify_on_empty true true wGuestC3 wVringC3 rfl rfl

/-- C8: with event-index negotiated and an invalid baseline, any
`vring_should_notify` call that is not short-circuited by the
notify-on-empty test returns `true` and establishes the baseline:
`signalled_used` becomes `last_used_idx` and `signalled_used_valid`
becomes `true`. -/
theorem should_notify_invalid_baseline (ne ei : Bool) (g : Guest) (v : Vring)
    (hei : ei = true) (hv : v.signalled_used_valid = false)
    (hskip : ¬ (ne = true ∧ g.availIdx % 65536 = v.last_avail_idx % 65536)) :
    vring_should_notify ne ei g v =
      (true, { v with signalled_used := v.last_used_idx % 65536,
                      signalled_used_valid := true }) := by
  simp [vring_should_notify, hskip, hei, hv]

/-- Theorem `should_notify_invalid_baseline` applied at a concrete input. -/
theorem should_notify_invalid_baseline_witness :
    vring_should_notify false true wGuestC3 wVringC8 =
      (true, { wVringC8 with signalled_used := 7,
                             signalled_used_valid := true }) :=
  should_notify_invalid_baseline false true wGuestC3 wVringC8 rfl rfl
    (by simp)

/-- C10: with event-index negotiated, every `vring_should_notify` call
that is not short-circuited by the notify-on-empty test mutates the
queue — whatever boolean it returns, the post-state has
`signalled_used = last_used_idx` and `signalled_used_valid = true` —
so `should_notify` is not a pure query. -/
theorem should_notify_writes_baseline (ne ei : Bool) (g : Guest) (v : Vring)
    (hei : ei = true)
    (hskip : ¬ (ne = true ∧ g.availIdx % 65536 = v.last_avail_idx % 65536)) :
    (vring_should_notify ne ei g v).2 =
      { v with signalled_used := v.last_used_idx % 65536,
               signalled_used_valid := true } := by
  simp only [vring_should_notify, if_neg hskip, hei]
  rw [if_neg (by simp)]
  split <;> rfl

/-- Theorem `should_notify_writes_baseline` applied at a concrete input. -/
theorem should_notify_writes_baseline_witness :
    (vring_should_notify false true wGuestC3 wVringC10).2 =
      { wVringC10 with signalled_used := 7, signalled_used_valid := true } :=
  should_notify_writes_baseline false true wGuestC3 wVringC10 rfl (by simp)

/-! ## Used-ring publisher theorems -/

/-- C7: on a non-broken queue, `vring_push head len` writes `(head, len)`
into the used ring at slot `last_used_idx % num` (16-bit cursor value),
and publishes `used.idx = last_used_idx + 1 (mod 2^16)`, advancing the
cursor by exactly one. -/
theorem push_round_trip (v : Vring) (head len : Nat) (h : v.broken = false) :
    (vring_push v head len).usedRing ((v.last_used_idx % 65536) % v.num)
        = (head, len) ∧
    (vring_push v head len).usedIdx = (v.last_used_idx + 1) % 65536 ∧
    (vring_push v head len).last_used_idx = (v.last_used_idx + 1) % 65536 := by
  simp only [vring_push, h]
  norm_num
  by_cases hc : toInt16 ((v.last_used_idx + 1) % 65536 + 65536
      - v.signalled_used % 65536) < 1 <;>
    simp [hc]

/-- Theorem `push_round_trip` applied at a concrete input: pushing `(2, 512)`
fills used slot `6 % 4 = 2` and publishes `used.idx = 7`. -/
theorem push_round_trip_witness :
    (vring_push wVringC7 2 512).usedRing 2 = (2, 512) ∧
    (vring_push wVringC7 2 512).usedIdx = 7 ∧
    (vring_push wVringC7 2 512).last_used_idx = 7 :=
  push_round_trip wVringC7 2 512 rfl

/-- C2 counterexample: after `push` on this non-broken queue the new
`last_used_idx` (= 1) has advanced past `signalled_used` (= 0) by one in
wraparound 16-bit arithmetic, yet `signalled_used_valid` is NOT cleared
— the code clears it only when the signed 16-bit difference is below
one, the opposite of the claimed condition. -/
theorem push_c2_counterexample :
    wVringC2.broken = false ∧
    1 ≤ ((wVringC2.last_used_idx + 1) % 65536 + 65536
          - wVringC2.signalled_used % 65536) % 65536 ∧
    (vring_push wVringC2 1 100).signalled_used_valid = true := by
  refine ⟨rfl, by decide, ?_⟩
  decide

/-- The C cast-and-compare `(int16_t) x < 1` in terms of the low 16
bits of `x`: it holds exactly when `x mod 2^16` is zero or at least
`2^15`. -/
theorem toInt16_lt_one_iff (x : Nat) :
    toInt16 x < 1 ↔ (x % 65536 = 0 ∨ 32768 ≤ x % 65536) := by
  unfold toInt16
  split <;> omega

/-- C2 as amended: on a non-broken queue, `push` clears
`signalled_used_valid` exactly when the 16-bit wraparound difference
`d = new_last_used_idx - signalled_used` is zero or at least 2^15
(i.e. `(int16_t) d < 1`: the new cursor has NOT advanced past the
baseline by 1..32767); when `1 ≤ d < 2^15` the flag is left unchanged. -/
theorem push_signalled_valid_rule (v : Vring) (head len : Nat)
    (h : v.broken = false) :
    ((((v.last_used_idx + 1) % 65536 + 65536
        - v.signalled_used % 65536) % 65536 = 0 ∨
     32768 ≤ ((v.last_used_idx + 1) % 65536 + 65536
        - v.signalled_used % 65536) % 65536) →
       (vring_push v head len).signalled_used_valid = false) ∧
    (1 ≤ ((v.last_used_idx + 1) % 65536 + 65536
        - v.signalled_used % 65536) % 65536 →
     ((v.last_used_idx + 1) % 65536 + 65536
        - v.signalled_used % 65536) % 65536 < 32768 →
       (vring_push v head len).signalled_used_valid
         = v.signalled_used_valid) := by
  simp only [vring_push, h]
  norm_num
  by_cases hc : toInt16 ((v.last_used_idx + 1) % 65536 + 65536
      - v.signalled_used % 65536) < 1
  · rw [if_pos hc]
    rw [toInt16_lt_one_iff] at hc
    exact ⟨fun _ => rfl, fun hd hd2 => absurd hc (by omega)⟩
  · rw [if_neg hc]
    rw [toInt16_lt_one_iff] at hc
    exact ⟨fun hd => absurd hd hc, fun _ _ => rfl⟩

/-- Witness for `push_signalled_valid_rule` at two concrete states. -/
theorem push_signalled_valid_rule_witness :
    (vring_push wVringC2 1 100).signalled_used_valid
      = wVringC2.signalled_used_valid ∧
    (vring_push wVringC2b 1 100).signalled_used_valid = false :=
  ⟨(push_signalled_valid_rule wVringC2 1 100 rfl).2 (by decide) (by decide),
   (push_signalled_valid_rule wVringC2b 1 100 rfl).1 (by decide)⟩

/-! ## Descriptor chain walker theorems: error handling -/

/-- C4: whenever `vring_pop` returns the insufficient-capacity result
(`-ENOBUFS`), the chain parse is not committed: `last_avail_idx` still
has its pre-call value (so the caller can retry the same avail entry
with more capacity) and `broken` is untouched. -/
theorem pop_nobufs_no_commit (ei : Bool) (g : Guest) (v : Vring) (cap : Nat)
    (h : (vring_pop ei g v cap).1 = .nobufs) :
    (vring_pop ei g v cap).2.last_avail_idx = v.last_avail_idx ∧
    (vring_pop ei g v cap).2.broken = v.broken := by
  rcases hres : vring_pop ei g v cap with ⟨r, v2⟩
  rw [hres] at h
  simp only [vring_pop, vring_pop_body] at hres
  split at hres
  · injection hres with e1 e2; subst e1; subst e2; simp at h
  · split at hres
    · injection hres with e1 e2; subst e1; subst e2; simp at h
    · split at hres
      · injection hres with e1 e2; subst e1; subst e2; simp at h
      · split at hres
        · injection hres with e1 e2; subst e1; subst e2; simp at h
        · split at hres
          · injection hres with e1 e2; subst e1; subst e2; simp at h
          · injection hres with e1 e2; subst e1; subst e2
            by_cases he : ei = true <;> simp [he]
          · injection hres with e1 e2; subst e1; subst e2; simp at h

/-- Theorem `pop_nobufs_no_commit` applied at a concrete input where the span
list (capacity 0) fills up before the chain is walked. -/
theorem pop_nobufs_no_commit_witness :
    (vring_pop false wGuestC4 wVringC4 0).2.last_avail_idx
        = wVringC4.last_avail_idx ∧
    (vring_pop false wGuestC4 wVringC4 0).2.broken = wVringC4.broken :=
  pop_nobufs_no_commit false wGuestC4 wVringC4 0 (by
    simp [vring_pop, vring_pop_body, wGuestC4, wVringC4, popLoop])

/-- C5: on a non-broken queue, `vring_pop` returns `-EFAULT` and sets
`broken` exactly when the guest-published `avail.idx` exceeds
`last_avail_idx` by more than `num` in wraparound 16-bit arithmetic;
when the difference is at most `num` the call is decided entirely by
the remainder of the algorithm (`vring_pop_body`), so it cannot fail
for this reason. -/
theorem pop_avail_index_check (ei : Bool) (g : Guest) (v : Vring) (cap : Nat)
    (h : v.broken = false) :
    (v.num < (g.availIdx % 65536 + 65536 - v.last_avail_idx % 65536) % 65536 →
       vring_pop ei g v cap = (.fault, { v with broken := true })) ∧
    ((g.availIdx % 65536 + 65536 - v.last_avail_idx % 65536) % 65536 ≤ v.num →
       vring_pop ei g v cap = vring_pop_body ei g v cap) := by
  constructor <;> intro hd
  · simp [vring_pop, h, hd]
  · simp [vring_pop, h, Nat.not_lt.mpr hd]

/-- Theorem `pop_avail_index_check` applied at concrete inputs on both sides of
the plausibility bound. -/
theorem pop_avail_index_check_witness :
    vring_pop false wGuestC5a wVringC5 1
      = (.fault, { wVringC5 with broken := true }) ∧
    vring_pop false wGuestC5b wVringC5 1
      = vring_pop_body false wGuestC5b wVringC5 1 :=
  ⟨(pop_avail_index_check false wGuestC5a wVringC5 1 rfl).1 (by decide),
   (pop_avail_index_check false wGuestC5b wVringC5 1 rfl).2 (by decide)⟩

/-! ## Descriptor chain walker theorems: bounded walk (C1) -/

/-- Helper for C1: the instrumented indirect walk `giLoopV` computes
the same result as `giLoop`, and the number of accepted table entries
is bounded by `count - found` — from a fresh call, by the table's
declared entry count. Holds for every guest, table and capacity. -/
theorem giLoopV_spec (g : Guest) (tblAddr count cap : Nat) :
    ∀ fuel found iov o n, count + 1 - found ≤ fuel →
      (giLoopV g tblAddr count cap iov o n found).1
        = giLoop g tblAddr count cap iov o n found ∧
      (giLoopV g tblAddr count cap iov o n found).2 ≤ count - found := by
  intro fuel
  induction fuel with
  | zero =>
    intro found iov o n hk
    rw [giLoopV.eq_def, giLoop.eq_def]
    by_cases hlk : g.lookup (tblAddr + found * 16) 16 false = true
    · simp only [hlk, not_true, if_false]
      rw [dif_pos (by omega : count < found + 1),
        dif_pos (by omega : count < found + 1)]
      exact ⟨rfl, by omega⟩
    · simp [hlk]
  | succ fuel ih =>
    intro found iov o n hk
    rw [giLoopV.eq_def, giLoop.eq_def]
    dsimp only
    by_cases hlk : g.lookup (tblAddr + found * 16) 16 false = true
    · simp only [hlk, not_true, if_false]
      by_cases hf : count < found + 1
      · rw [dif_pos hf, dif_pos hf]
        exact ⟨rfl, by omega⟩
      · rw [dif_neg hf, dif_neg hf]
        by_cases hnd : (g.mem (tblAddr + found * 16)).fIndirect = true
        · rw [if_pos hnd, if_pos hnd]
          exact ⟨rfl, by omega⟩
        · rw [if_neg hnd, if_neg hnd]
          by_cases hcp : cap ≤ iov.length
          · rw [if_pos hcp, if_pos hcp]
            exact ⟨rfl, by omega⟩
          · rw [if_neg hcp, if_neg hcp]
            by_cases hpl : g.lookup (g.mem (tblAddr + found * 16)).addr
                (g.mem (tblAddr + found * 16)).len
                (g.mem (tblAddr + found * 16)).fWrite = true
            · simp only [hpl, not_true, if_false]
              by_cases hw : (g.mem (tblAddr + found * 16)).fWrite = true
              · rw [if_pos hw, if_pos hw]
                by_cases hnx : (g.mem (tblAddr + found * 16)).fNext = true
                · rw [if_pos hnx, if_pos hnx]
                  dsimp only
                  obtain ⟨he, hb⟩ := ih (found + 1) _ o (n + 1) (by omega)
                  exact ⟨he, by omega⟩
                · rw [if_neg hnx, if_neg hnx]
                  exact ⟨rfl, by omega⟩
              · rw [if_neg hw, if_neg hw]
                by_cases hn0 : n ≠ 0
                · rw [if_pos hn0, if_pos hn0]
                  exact ⟨rfl, by omega⟩
                · rw [if_neg hn0, if_neg hn0]
                  by_cases hnx : (g.mem (tblAddr + found * 16)).fNext = true
                  · rw [if_pos hnx, if_pos hnx]
                    dsimp only
                    obtain ⟨he, hb⟩ := ih (found + 1) _ (o + 1) n (by omega)
                    exact ⟨he, by omega⟩
                  · rw [if_neg hnx, if_neg hnx]
                    exact ⟨rfl, by omega⟩
            · simp [hpl]
              omega
    · simp [hlk]

/-- Helper for C1: the instrumented direct walk `popLoopV` computes
the same result as `popLoop`, and the number of accepted direct
descriptors is bounded by `num - found` — from a fresh call, by the
queue capacity `num`. Holds for every guest, chain shape and
capacity. -/
theorem popLoopV_spec (g : Guest) (num cap : Nat) :
    ∀ fuel i found iov o n, num + 1 - found ≤ fuel →
      (popLoopV g num cap i found iov o n).1
        = popLoop g num cap i found iov o n ∧
      (popLoopV g num cap i found iov o n).2 ≤ num - found := by
  intro fuel
  induction fuel with
  | zero =>
    intro i found iov o n hk
    rw [popLoopV.eq_def, popLoop.eq_def]
    by_cases hi : num ≤ i
    · rw [if_pos hi, if_pos hi]
      exact ⟨rfl, by omega⟩
    · rw [if_neg hi, if_neg hi,
        dif_pos (by omega : num < found + 1),
        dif_pos (by omega : num < found + 1)]
      exact ⟨rfl, by omega⟩
  | succ fuel ih =>
    intro i found iov o n hk
    rw [popLoopV.eq_def, popLoop.eq_def]
    dsimp only
    by_cases hi : num ≤ i
    · rw [if_pos hi, if_pos hi]
      exact ⟨rfl, by omega⟩
    · rw [if_neg hi, if_neg hi]
      by_cases hf : num < found + 1
      · rw [dif_pos hf, dif_pos hf]
        exact ⟨rfl, by omega⟩
      · rw [dif_neg hf, dif_neg hf]
        by_cases hnd : (g.desc i).fIndirect = true
        · rw [if_pos hnd, if_pos hnd]
          rcases hgi : get_indirect g cap iov o n (g.desc i) with
            ⟨iovx, ox, nx⟩ | _ | _
          · dsimp only
            by_cases hnx : (g.desc i).fNext = true
            · rw [if_pos hnx, if_pos hnx]
              dsimp only
              obtain ⟨he, hb⟩ := ih i (found + 1) iovx ox nx (by omega)
              exact ⟨he, by omega⟩
            · rw [if_neg hnx, if_neg hnx]
              exact ⟨rfl, by omega⟩
          · dsimp only
            exact ⟨rfl, by omega⟩
          · dsimp only
            exact ⟨rfl, by omega⟩
        · rw [if_neg hnd, if_neg hnd]
          by_cases hcp : cap ≤ iov.length
          · rw [if_pos hcp, if_pos hcp]
            exact ⟨rfl, by omega⟩
          · rw [if_neg hcp, if_neg hcp]
            by_cases hpl : g.lookup (g.desc i).addr (g.desc i).len
                (g.desc i).fWrite = true
            · simp only [hpl, not_true, if_false]
              by_cases hw : (g.desc i).fWrite = true
              · rw [if_pos hw, if_pos hw]
                by_cases hnx : (g.desc i).fNext = true
                · rw [if_pos hnx, if_pos hnx]
                  dsimp only
                  obtain ⟨he, hb⟩ := ih (g.desc i).next (found + 1) _ o
                    (n + 1) (by omega)
                  exact ⟨he, by omega⟩
                · rw [if_neg hnx, if_neg hnx]
                  exact ⟨rfl, by omega⟩
              · rw [if_neg hw, if_neg hw]
                by_cases hn0 : n ≠ 0
                · rw [if_pos hn0, if_pos hn0]
                  exact ⟨rfl, by omega⟩
                · rw [if_neg hn0, if_neg hn0]
                  by_cases hnx : (g.desc i).fNext = true
                  · rw [if_pos hnx, if_pos hnx]
                    dsimp only
                    obtain ⟨he, hb⟩ := ih (g.desc i).next (found + 1) _
                      (o + 1) n (by omega)
                    exact ⟨he, by omega⟩
                  · rw [if_neg hnx, if_neg hnx]
                    exact ⟨rfl, by omega⟩
            · simp [hpl]
              omega

/-- C1: the chain walk is budget-bounded, for every guest and every
chain shape (cyclic, over-length, direct or through indirect
descriptors) with no hypothesis on the descriptor table. First
conjunct: entering the direct loop with the visit budget exhausted
(`num ≤ found`, the source's `++found > num` trip) returns `-EFAULT`.
Second conjunct: the same inside an indirect table once the declared
entry count is exhausted. Third and fourth conjuncts: the instrumented
walks agree with the real ones and accept at most `num - found` direct
descriptors resp. `count - found` table entries — from a fresh `pop`,
at most `num` visits, and inside one indirect table at most its
declared entry count; so any chain needing more visits (a cycle or
over-length chain) can only end in the budget fault or another exit.
Fifth conjunct: whenever `vring_pop` returns `-EFAULT` — in particular
on the budget fault — the post-state has `broken = true`, and the
`.fault` result carries no resolved request. Termination of the walk
is witnessed by `popLoop`/`giLoop` being total Lean functions. -/
theorem pop_bounded_walk :
    (∀ (g : Guest) (num cap i found : Nat) (iov : List Iovec) (o n : Nat),
      num ≤ found → popLoop g num cap i found iov o n = .fault) ∧
    (∀ (g : Guest) (tblAddr count cap found : Nat) (iov : List Iovec)
        (o n : Nat),
      count ≤ found → giLoop g tblAddr count cap iov o n found = .fault) ∧
    (∀ (g : Guest) (num cap i found : Nat) (iov : List Iovec) (o n : Nat),
      (popLoopV g num cap i found iov o n).1
        = popLoop g num cap i found iov o n ∧
      (popLoopV g num cap i found iov o n).2 ≤ num - found) ∧
    (∀ (g : Guest) (tblAddr count cap found : Nat) (iov : List Iovec)
        (o n : Nat),
      (giLoopV g tblAddr count cap iov o n found).1
        = giLoop g tblAddr count cap iov o n found ∧
      (giLoopV g tblAddr count cap iov o n found).2 ≤ count - found) ∧
    (∀ (ei : Bool) (g : Guest) (v : Vring) (cap : Nat),
      (vring_pop ei g v cap).1 = .fault →
      (vring_pop ei g v cap).2.broken = true) := by
  refine ⟨?_, ?_, ?_, ?_, ?_⟩
  · intro g num cap i found iov o n hfd
    rw [popLoop.eq_def]
    by_cases hi : num ≤ i
    · rw [if_pos hi]
    · rw [if_neg hi, dif_pos (by omega : num < found + 1)]
  · intro g tblAddr count cap found iov o n hfd
    rw [giLoop.eq_def]
    by_cases hlk : g.lookup (tblAddr + found * 16) 16 false = true
    · simp only [hlk, not_true, if_false]
      rw [dif_pos (by omega : count < found + 1)]
    · simp [hlk]
  · intro g num cap i found iov o n
    exact popLoopV_spec g num cap (num + 1) i found iov o n (by omega)
  · intro g tblAddr count cap found iov o n
    exact giLoopV_spec g tblAddr count cap (count + 1) found iov o n
      (by omega)
  · intro ei g v cap h
    rcases hres : vring_pop ei g v cap with ⟨r, v2⟩
    rw [hres] at h
    simp only [vring_pop, vring_pop_body] at hres
    split at hres
    · injection hres with e1 e2
      subst e1; subst e2
      next hb => exact hb
    · split at hres
      · injection hres with e1 e2; subst e1; subst e2; rfl
      · split at hres
        · injection hres with e1 e2; subst e1; subst e2; simp at h
        · split at hres
          · injection hres with e1 e2; subst e1; subst e2; rfl
          · split at hres
            · injection hres with e1 e2; subst e1; subst e2; rfl
            · injection hres with e1 e2; subst e1; subst e2; simp at h
            · injection hres with e1 e2; subst e1; subst e2; simp at h

/-- Theorem `pop_bounded_walk` applied at concrete inputs: the direct
walk faults as soon as the visit counter reaches `num = 4`, the
indirect walk faults once its declared count `2` is reached, and a
full `vring_pop` on the subset cycle 0 and 1 (descriptors 2 and 3
terminal, capacity 4) returns a fatal error with `broken` set after
the budget trips at the fifth visit. -/
theorem pop_bounded_walk_witness :
    popLoop wGuestC1 4 4 0 4 [] 0 0 = .fault ∧
    giLoop wGuestC1 0 2 4 [] 0 0 2 = .fault ∧
    (vring_pop false wGuestC1 wVringC1 4).2.broken = true :=
  ⟨pop_bounded_walk.1 wGuestC1 4 4 0 4 [] 0 0 (by decide),
   pop_bounded_walk.2.1 wGuestC1 0 2 4 2 [] 0 0 (by decide),
   pop_bounded_walk.2.2.2.2 false wGuestC1 wVringC1 4
     (by simp [vring_pop, vring_pop_body, wGuestC1, wVringC1, popLoop])⟩


/-! ## Descriptor chain walker theorems: read/write ordering (C6) -/

/-- The indirect-table walk preserves the read-before-write partition
of the accumulated spans on every successful exit. -/
theorem giLoop_partition (g : Guest) (tblAddr count cap : Nat) :
    ∀ fuel found iov o n iov2 o2 n2, count + 1 - found ≤ fuel →
      PartitionedRW iov o n →
      giLoop g tblAddr count cap iov o n found = .ok iov2 o2 n2 →
      PartitionedRW iov2 o2 n2 := by
  intro fuel
  induction fuel with
  | zero =>
    intro found iov o n iov2 o2 n2 hk hinv heq
    rw [giLoop.eq_def] at heq
    by_cases hlk : g.lookup (tblAddr + found * 16) 16 false = true
    · simp only [hlk, not_true, if_false] at heq
      rw [dif_pos (by omega)] at heq
      exact absurd heq (by simp)
    · simp [hlk] at heq
  | succ fuel ih =>
    intro found iov o n iov2 o2 n2 hk hinv heq
    rw [giLoop.eq_def] at heq
    by_cases hlk : g.lookup (tblAddr + found * 16) 16 false = true
    · simp only [hlk, not_true, if_false] at heq
      by_cases hf : count < found + 1
      · rw [dif_pos hf] at heq; exact absurd heq (by simp)
      · rw [dif_neg hf] at heq
        by_cases hind : (g.mem (tblAddr + found * 16)).fIndirect = true
        · rw [if_pos hind] at heq; exact absurd heq (by simp)
        · rw [if_neg hind] at heq
          by_cases hcp : cap ≤ iov.length
          · rw [if_pos hcp] at heq; exact absurd heq (by simp)
          · rw [if_neg hcp] at heq
            by_cases hpl : g.lookup (g.mem (tblAddr + found * 16)).addr
                (g.mem (tblAddr + found * 16)).len
                (g.mem (tblAddr + found * 16)).fWrite = true
            · simp only [hpl, not_true, if_false] at heq
              obtain ⟨a, b, hab, ha, hb, hao, hbn⟩ := hinv
              by_cases hw : (g.mem (tblAddr + found * 16)).fWrite = true
              · rw [if_pos hw] at heq
                have hinv2 : PartitionedRW (iov ++
                    [⟨(g.mem (tblAddr + found * 16)).addr,
                      (g.mem (tblAddr + found * 16)).len,
                      (g.mem (tblAddr + found * 16)).fWrite⟩]) o (n + 1) := by
                  refine ⟨a, b ++ [⟨(g.mem (tblAddr + found * 16)).addr,
                    (g.mem (tblAddr + found * 16)).len,
                    (g.mem (tblAddr + found * 16)).fWrite⟩],
                    by rw [hab, List.append_assoc], ha, ?_, hao, by simp [hbn]⟩
                  intro s hs
                  rcases List.mem_append.mp hs with hs | hs
                  · exact hb s hs
                  · simp only [List.mem_singleton] at hs
                    subst hs
                    exact hw
                by_cases hnx : (g.mem (tblAddr + found * 16)).fNext = true
                · rw [if_pos hnx] at heq
                  exact ih (found + 1) _ o (n + 1) iov2 o2 n2 (by omega)
                    hinv2 heq
                · rw [if_neg hnx] at heq
                  injection heq with h1 h2 h3
                  subst h1; subst h2; subst h3
                  exact hinv2
              · rw [if_neg hw] at heq
                by_cases hn0 : n ≠ 0
                · rw [if_pos hn0] at heq; exact absurd heq (by simp)
                · rw [if_neg hn0] at heq
                  push_neg at hn0
                  subst hn0
                  have hbnil : b = [] := List.length_eq_zero.mp hbn
                  subst hbnil
                  simp only [Bool.not_eq_true] at hw
                  have hinv2 : PartitionedRW (iov ++
                      [⟨(g.mem (tblAddr + found * 16)).addr,
                        (g.mem (tblAddr + found * 16)).len,
                        (g.mem (tblAddr + found * 16)).fWrite⟩]) (o + 1) 0 := by
                    refine ⟨a ++ [⟨(g.mem (tblAddr + found * 16)).addr,
                      (g.mem (tblAddr + found * 16)).len,
                      (g.mem (tblAddr + found * 16)).fWrite⟩], [],
                      by simp [hab], ?_, by simp, by simp [hao], rfl⟩
                    intro s hs
                    rcases List.mem_append.mp hs with hs | hs
                    · exact ha s hs
                    · simp only [List.mem_singleton] at hs
                      subst hs
                      exact hw
                  by_cases hnx : (g.mem (tblAddr + found * 16)).fNext = true
                  · rw [if_pos hnx] at heq
                    exact ih (found + 1) _ (o + 1) 0 iov2 o2 n2 (by omega)
                      hinv2 heq
                  · rw [if_neg hnx] at heq
                    injection heq with h1 h2 h3
                    subst h1; subst h2; subst h3
                    exact hinv2
            · simp [hpl] at heq
    · simp [hlk] at heq

/-- Function `get_indirect` preserves the read-before-write partition on every
successful exit. -/
theorem get_indirect_partition (g : Guest) (cap : Nat) (iov : List Iovec)
    (o n : Nat) (ind : VRingDesc) (iov2 : List Iovec) (o2 n2 : Nat)
    (hinv : PartitionedRW iov o n)
    (heq : get_indirect g cap iov o n ind = .ok iov2 o2 n2) :
    PartitionedRW iov2 o2 n2 := by
  unfold get_indirect at heq
  by_cases h16 : ind.len % 16 ≠ 0
  · rw [if_pos h16] at heq; exact absurd heq (by simp)
  · rw [if_neg h16] at heq
    by_cases hbig : 65536 < ind.len / 16
    · rw [if_pos hbig] at heq; exact absurd heq (by simp)
    · rw [if_neg hbig] at heq
      exact giLoop_partition g ind.addr (ind.len / 16) cap
        (ind.len / 16 + 1) 0 iov o n iov2 o2 n2 (by omega) hinv heq

/-- The main chain walk preserves the read-before-write partition of
the accumulated spans on every successful exit. -/
theorem popLoop_partition (g : Guest) (num cap : Nat) :
    ∀ fuel i found iov o n iov2 o2 n2, num + 1 - found ≤ fuel →
      PartitionedRW iov o n →
      popLoop g num cap i found iov o n = .ok iov2 o2 n2 →
      PartitionedRW iov2 o2 n2 := by
  intro fuel
  induction fuel with
  | zero =>
    intro i found iov o n iov2 o2 n2 hk hinv heq
    rw [popLoop.eq_def] at heq
    by_cases hi : num ≤ i
    · rw [if_pos hi] at heq; exact absurd heq (by simp)
    · rw [if_neg hi] at heq
      rw [dif_pos (by omega)] at heq
      exact absurd heq (by simp)
  | succ fuel ih =>
    intro i found iov o n iov2 o2 n2 hk hinv heq
    rw [popLoop.eq_def] at heq
    by_cases hi : num ≤ i
    · rw [if_pos hi] at heq; exact absurd heq (by simp)
    · rw [if_neg hi] at heq
      by_cases hf : num < found + 1
      · rw [dif_pos hf] at heq; exact absurd heq (by simp)
      · rw [dif_neg hf] at heq
        by_cases hind : (g.desc i).fIndirect = true
        · simp only [hind, if_true] at heq
          rcases hgi : get_indirect g cap iov o n (g.desc i) with
            ⟨iovx, ox, nx⟩ | _ | _
          · rw [hgi] at heq
            simp only at heq
            have hinvx := get_indirect_partition g cap iov o n (g.desc i)
              iovx ox nx hinv hgi
            by_cases hnx : (g.desc i).fNext = true
            · rw [if_pos hnx] at heq
              exact ih i (found + 1) iovx ox nx iov2 o2 n2 (by omega)
                hinvx heq
            · rw [if_neg hnx] at heq
              injection heq with h1 h2 h3
              subst h1; subst h2; subst h3
              exact hinvx
          · rw [hgi] at heq; exact absurd heq (by simp)
          · rw [hgi] at heq; exact absurd heq (by simp)
        · simp only [hind, if_false] at heq
          by_cases hcp : cap ≤ iov.length
          · rw [if_pos hcp] at heq; exact absurd heq (by simp)
          · rw [if_neg hcp] at heq
            by_cases hpl : g.lookup (g.desc i).addr (g.desc i).len
                (g.desc i).fWrite = true
            · simp only [hpl, not_true, if_false] at heq
              obtain ⟨a, b, hab, ha, hb, hao, hbn⟩ := hinv
              by_cases hw : (g.desc i).fWrite = true
              · rw [if_pos hw] at heq
                have hinv2 : PartitionedRW (iov ++
                    [⟨(g.desc i).addr, (g.desc i).len, (g.desc i).fWrite⟩])
                    o (n + 1) := by
                  refine ⟨a, b ++ [⟨(g.desc i).addr, (g.desc i).len,
                    (g.desc i).fWrite⟩],
                    by rw [hab, List.append_assoc], ha, ?_, hao, by simp [hbn]⟩
                  intro s hs
                  rcases List.mem_append.mp hs with hs | hs
                  · exact hb s hs
                  · simp only [List.mem_singleton] at hs
                    subst hs
                    exact hw
                by_cases hnx : (g.desc i).fNext = true
                · rw [if_pos hnx] at heq
                  exact ih (g.desc i).next (found + 1) _ o (n + 1)
                    iov2 o2 n2 (by omega) hinv2 heq
                · rw [if_neg hnx] at heq
                  injection heq with h1 h2 h3
                  subst h1; subst h2; subst h3
                  exact hinv2
              · rw [if_neg hw] at heq
                by_cases hn0 : n ≠ 0
                · rw [if_pos hn0] at heq; exact absurd heq (by simp)
                · rw [if_neg hn0] at heq
                  push_neg at hn0
                  subst hn0
                  have hbnil : b = [] := List.length_eq_zero.mp hbn
                  subst hbnil
                  simp only [Bool.not_eq_true] at hw
                  have hinv2 : PartitionedRW (iov ++
                      [⟨(g.desc i).addr, (g.desc i).len,
                        (g.desc i).fWrite⟩]) (o + 1) 0 := by
                    refine ⟨a ++ [⟨(g.desc i).addr, (g.desc i).len,
                      (g.desc i).fWrite⟩], [],
                      by simp [hab], ?_, by simp, by simp [hao], rfl⟩
                    intro s hs
                    rcases List.mem_append.mp hs with hs | hs
                    · exact ha s hs
                    · simp only [List.mem_singleton] at hs
                      subst hs
                      exact hw
                  by_cases hnx : (g.desc i).fNext = true
                  · rw [if_pos hnx] at heq
                    exact ih (g.desc i).next (found + 1) _ (o + 1) 0
                      iov2 o2 n2 (by omega) hinv2 heq
                  · rw [if_neg hnx] at heq
                    injection heq with h1 h2 h3
                    subst h1; subst h2; subst h3
                    exact hinv2
            · simp [hpl] at heq

/-- Every resolved request `vring_pop` returns is partitioned into
device-readable spans followed by device-writable spans. -/
theorem pop_ok_gives_partition (ei : Bool) (g : Guest) (v : Vring)
    (cap : Nat) (head : Nat) (iov : List Iovec) (o n : Nat) (v2 : Vring)
    (heq : vring_pop ei g v cap = (.ok head iov o n, v2)) :
    PartitionedRW iov o n := by
  simp only [vring_pop, vring_pop_body] at heq
  split at heq
  · exact absurd heq (by simp)
  · split at heq
    · exact absurd heq (by simp)
    · split at heq
      · exact absurd heq (by simp)
      · split at heq
        · exact absurd heq (by simp)
        · rcases hpop : popLoop g v.num cap
              (g.availRing (v.last_avail_idx % 65536 % v.num) % 65536)
              0 [] 0 0 with ⟨iovx, ox, nx⟩ | _ | _
          · rw [hpop] at heq
            simp only at heq
            injection heq with h1 h2
            injection h1 with e0 e1 e2 e3
            have hpart := popLoop_partition g v.num cap (v.num + 1) _ 0 [] 0 0
              iovx ox nx (by omega)
              ⟨[], [], rfl, by simp, by simp, rfl, rfl⟩ hpop
            rw [e1, e2, e3] at hpart
            exact hpart
          · rw [hpop] at heq; exact absurd heq (by simp)
          · rw [hpop] at heq; exact absurd heq (by simp)

/-- C6 (amended): `vring_pop` succeeds only on chains whose resolved
spans form a device-readable prefix followed by a device-writable
suffix, with `out_num`/`in_num` the block lengths (first conjunct); a
walk step that reaches a non-write descriptor while `in_num` is already
positive returns `-EFAULT`, both in the direct chain (second conjunct)
and inside an indirect table (third conjunct). The original claim
("any chain containing an out-descriptor after an in-descriptor makes
pop fail fatally") is refuted by `pop_order_claim_counterexample`: the
caller's span list can fill up before the violating descriptor is
reached, giving non-fatal `-ENOBUFS`. -/
theorem pop_reads_before_writes :
    (∀ (ei : Bool) (g : Guest) (v : Vring) (cap : Nat) (head : Nat)
        (iov : List Iovec) (o n : Nat) (v2 : Vring),
      vring_pop ei g v cap = (.ok head iov o n, v2) →
      ∃ a b, iov = a ++ b ∧ (∀ s ∈ a, s.isWrite = false) ∧
        (∀ s ∈ b, s.isWrite = true) ∧ a.length = o ∧ b.length = n) ∧
    (∀ (g : Guest) (num cap i found : Nat) (iov : List Iovec) (o n : Nat),
      i < num → found + 1 ≤ num → (g.desc i).fIndirect = false →
      iov.length < cap →
      g.lookup (g.desc i).addr (g.desc i).len (g.desc i).fWrite = true →
      (g.desc i).fWrite = false → n ≠ 0 →
      popLoop g num cap i found iov o n = .fault) ∧
    (∀ (g : Guest) (tblAddr count cap found : Nat) (iov : List Iovec)
        (o n : Nat),
      g.lookup (tblAddr + found * 16) 16 false = true →
      found + 1 ≤ count →
      (g.mem (tblAddr + found * 16)).fIndirect = false →
      iov.length < cap →
      g.lookup (g.mem (tblAddr + found * 16)).addr
        (g.mem (tblAddr + found * 16)).len
        (g.mem (tblAddr + found * 16)).fWrite = true →
      (g.mem (tblAddr + found * 16)).fWrite = false → n ≠ 0 →
      giLoop g tblAddr count cap iov o n found = .fault) := by
  refine ⟨fun ei g v cap head iov o n v2 heq =>
    pop_ok_gives_partition ei g v cap head iov o n v2 heq, ?_, ?_⟩
  · intro g num cap i found iov o n hi hf hnind hcp hlk hw hn
    rw [popLoop.eq_def]
    rw [if_neg (by omega)]
    rw [dif_neg (by omega)]
    simp only [hnind, Bool.false_eq_true, if_false]
    rw [if_neg (by omega)]
    simp only [hlk, not_true, if_false]
    rw [if_neg (by simp [hw])]
    rw [if_pos hn]
  · intro g tblAddr count cap found iov o n hlk0 hf hnind hcp hlk hw hn
    rw [giLoop.eq_def]
    simp only [hlk0, not_true, if_false]
    rw [dif_neg (by omega)]
    rw [if_neg (by simp [hnind])]
    rw [if_neg (by omega)]
    simp only [hlk, not_true, if_false]
    rw [if_neg (by simp [hw])]
    rw [if_pos hn]

/-- C6 counterexample: the chain `head = 1` is descriptor 1
(device-writable, NEXT) followed by descriptor 0 (device-readable) —
an out-after-in violation — yet with a one-slot span list `vring_pop`
returns non-fatal `-ENOBUFS` and leaves `broken` clear, because the
capacity check preempts the ordering check. -/
theorem pop_order_claim_counterexample :
    (wGuestC6.desc 1).fWrite = true ∧ (wGuestC6.desc 1).fNext = true ∧
    (wGuestC6.desc 1).next = 0 ∧ (wGuestC6.desc 0).fWrite = false ∧
    (vring_pop false wGuestC6 wVringC6 1).1 = .nobufs ∧
    (vring_pop false wGuestC6 wVringC6 1).2.broken = false := by
  refine ⟨rfl, rfl, rfl, rfl, ?_, ?_⟩ <;>
    simp [vring_pop, vring_pop_body, wGuestC6, wVringC6, popLoop]

/-- Theorem `pop_reads_before_writes` applied at concrete inputs: a successful
single-write-descriptor pop yields the partitioned span list, and walk
steps hitting a readable descriptor after a writable one fault in both
the direct and the indirect walk. -/
theorem pop_reads_before_writes_witness :
    (∃ a b, [(⟨4096, 512, true⟩ : Iovec)] = a ++ b ∧
      (∀ s ∈ a, s.isWrite = false) ∧ (∀ s ∈ b, s.isWrite = true) ∧
      a.length = 0 ∧ b.length = 1) ∧
    popLoop wGuestC6 4 1 0 0 [] 0 1 = .fault ∧
    giLoop wGuestC6 0 2 1 [] 0 1 0 = .fault := by
  refine ⟨pop_reads_before_writes.1 false wGuestC6ok wVringC6 1 2
      [⟨4096, 512, true⟩] 0 1 { wVringC6 with last_avail_idx := 1 } ?_,
      ?_, ?_⟩
  · simp [vring_pop, vring_pop_body, wGuestC6ok, wVringC6, popLoop]
  · exact pop_reads_before_writes.2.1 wGuestC6 4 1 0 0 [] 0 1 (by decide)
      (by decide) (by decide) (by decide) (by decide) (by decide) (by decide)
  · exact pop_reads_before_writes.2.2 wGuestC6 0 2 1 0 [] 0 1 (by decide)
      (by decide) (by decide) (by decide) (by decide) (by decide) (by decide)

/-! ## Descriptor chain walker theorems: sequential indirect walk (C9) -/

/-- The indirect-table walk never reads the `next` field of a table
entry: rewriting every entry's `next` leaves the walk unchanged. -/
theorem giLoop_next_free (g : Guest) (f : Nat → Nat)
    (tblAddr count cap : Nat) :
    ∀ fuel found iov o n, count + 1 - found ≤ fuel →
      giLoop { g with mem := fun a => { g.mem a with next := f a } }
          tblAddr count cap iov o n found
        = giLoop g tblAddr count cap iov o n found := by
  intro fuel
  induction fuel with
  | zero =>
    intro found iov o n hk
    rw [giLoop.eq_def, giLoop.eq_def]
    dsimp only
    by_cases hlk : g.lookup (tblAddr + found * 16) 16 false = true
    · simp only [hlk, not_true, if_false]
      rw [dif_pos (by omega : count < found + 1),
        dif_pos (by omega : count < found + 1)]
    · simp [hlk]
  | succ fuel ih =>
    intro found iov o n hk
    rw [giLoop.eq_def, giLoop.eq_def]
    dsimp only
    by_cases hlk : g.lookup (tblAddr + found * 16) 16 false = true
    · simp only [hlk, not_true, if_false]
      by_cases hf : count < found + 1
      · rw [dif_pos hf, dif_pos hf]
      · rw [dif_neg hf, dif_neg hf]
        by_cases hnd : (g.mem (tblAddr + found * 16)).fIndirect = true
        · rw [if_pos hnd, if_pos hnd]
        · rw [if_neg hnd, if_neg hnd]
          by_cases hcp : cap ≤ iov.length
          · rw [if_pos hcp, if_pos hcp]
          · rw [if_neg hcp, if_neg hcp]
            by_cases hpl : g.lookup (g.mem (tblAddr + found * 16)).addr
                (g.mem (tblAddr + found * 16)).len
                (g.mem (tblAddr + found * 16)).fWrite = true
            · simp only [hpl, not_true, if_false]
              by_cases hw : (g.mem (tblAddr + found * 16)).fWrite = true
              · rw [if_pos hw, if_pos hw]
                by_cases hnx : (g.mem (tblAddr + found * 16)).fNext = true
                · rw [if_pos hnx, if_pos hnx]
                  exact ih (found + 1) _ o (n + 1) (by omega)
                · rw [if_neg hnx, if_neg hnx]
              · rw [if_neg hw, if_neg hw]
                by_cases hn0 : n ≠ 0
                · rw [if_pos hn0, if_pos hn0]
                · rw [if_neg hn0, if_neg hn0]
                  by_cases hnx : (g.mem (tblAddr + found * 16)).fNext = true
                  · rw [if_pos hnx, if_pos hnx]
                    exact ih (found + 1) _ (o + 1) n (by omega)
                  · rw [if_neg hnx, if_neg hnx]
            · simp [hpl]
    · simp [hlk]

/-- On success, the indirect-table walk has consumed entries `0..m-1`
taken at byte offsets `found*16, (found+1)*16, ...` from the table
base, all but the last carrying NEXT and the last not. -/
theorem giLoop_ok_sequential (g : Guest) (tblAddr count cap : Nat) :
    ∀ fuel found iov o n iov2 o2 n2, count + 1 - found ≤ fuel →
      giLoop g tblAddr count cap iov o n found = .ok iov2 o2 n2 →
      ∃ m, found < m ∧ m ≤ count ∧
        iov2 = iov ++ (List.range' found (m - found)).map (fun k =>
          ⟨(g.mem (tblAddr + k * 16)).addr, (g.mem (tblAddr + k * 16)).len,
           (g.mem (tblAddr + k * 16)).fWrite⟩) ∧
        (∀ k, found ≤ k → k + 1 < m →
          (g.mem (tblAddr + k * 16)).fNext = true) ∧
        (g.mem (tblAddr + (m - 1) * 16)).fNext = false := by
  intro fuel
  induction fuel with
  | zero =>
    intro found iov o n iov2 o2 n2 hk heq
    rw [giLoop.eq_def] at heq
    by_cases hlk : g.lookup (tblAddr + found * 16) 16 false = true
    · simp only [hlk, not_true, if_false] at heq
      rw [dif_pos (by omega)] at heq
      exact absurd heq (by simp)
    · simp [hlk] at heq
  | succ fuel ih =>
    intro found iov o n iov2 o2 n2 hk heq
    rw [giLoop.eq_def] at heq
    by_cases hlk : g.lookup (tblAddr + found * 16) 16 false = true
    · simp only [hlk, not_true, if_false] at heq
      by_cases hf : count < found + 1
      · rw [dif_pos hf] at heq; exact absurd heq (by simp)
      · rw [dif_neg hf] at heq
        by_cases hnd : (g.mem (tblAddr + found * 16)).fIndirect = true
        · rw [if_pos hnd] at heq; exact absurd heq (by simp)
        · rw [if_neg hnd] at heq
          by_cases hcp : cap ≤ iov.length
          · rw [if_pos hcp] at heq; exact absurd heq (by simp)
          · rw [if_neg hcp] at heq
            by_cases hpl : g.lookup (g.mem (tblAddr + found * 16)).addr
                (g.mem (tblAddr + found * 16)).len
                (g.mem (tblAddr + found * 16)).fWrite = true
            · simp only [hpl, not_true, if_false] at heq
              have hone : found + 1 - found = 1 := by omega
              by_cases hw : (g.mem (tblAddr + found * 16)).fWrite = true
              · rw [if_pos hw] at heq
                by_cases hnx : (g.mem (tblAddr + found * 16)).fNext = true
                · rw [if_pos hnx] at heq
                  obtain ⟨m, hm1, hm2, hm3, hm4, hm5⟩ :=
                    ih (found + 1) _ o (n + 1) iov2 o2 n2 (by omega) heq
                  refine ⟨m, by omega, hm2, ?_, ?_, hm5⟩
                  · rw [hm3, List.append_assoc]
                    have hsplit : m - found = (m - (found + 1)) + 1 := by
                      omega
                    rw [hsplit, List.range'_succ, List.map_cons]
                    rfl
                  · intro k hk1 hk2
                    rcases Nat.eq_or_lt_of_le hk1 with hke | hke
                    · rw [← hke]; exact hnx
                    · exact hm4 k (by omega) hk2
                · rw [if_neg hnx] at heq
                  injection heq with h1 h2 h3
                  refine ⟨found + 1, by omega, by omega, ?_, ?_, ?_⟩
                  · rw [← h1, hone, List.range'_succ]
                    rfl
                  · intro k hk1 hk2
                    exact absurd hk2 (by omega)
                  · simp only [Nat.add_sub_cancel]
                    simp only [Bool.not_eq_true] at hnx
                    exact hnx
              · rw [if_neg hw] at heq
                by_cases hn0 : n ≠ 0
                · rw [if_pos hn0] at heq; exact absurd heq (by simp)
                · rw [if_neg hn0] at heq
                  by_cases hnx : (g.mem (tblAddr + found * 16)).fNext = true
                  · rw [if_pos hnx] at heq
                    obtain ⟨m, hm1, hm2, hm3, hm4, hm5⟩ :=
                      ih (found + 1) _ (o + 1) n iov2 o2 n2 (by omega) heq
                    refine ⟨m, by omega, hm2, ?_, ?_, hm5⟩
                    · rw [hm3, List.append_assoc]
                      have hsplit : m - found = (m - (found + 1)) + 1 := by
                        omega
                      rw [hsplit, List.range'_succ, List.map_cons]
                      rfl
                    · intro k hk1 hk2
                      rcases Nat.eq_or_lt_of_le hk1 with hke | hke
                      · rw [← hke]; exact hnx
                      · exact hm4 k (by omega) hk2
                  · rw [if_neg hnx] at heq
                    injection heq with h1 h2 h3
                    refine ⟨found + 1, by omega, by omega, ?_, ?_, ?_⟩
                    · rw [← h1, hone, List.range'_succ]
                      rfl
                    · intro k hk1 hk2
                      exact absurd hk2 (by omega)
                    · simp only [Nat.add_sub_cancel]
                      simp only [Bool.not_eq_true] at hnx
                      exact hnx
            · simp [hpl] at heq
    · simp [hlk] at heq

/-- C9: the engine walks an indirect table strictly sequentially.
First conjunct: the result of `get_indirect` is invariant under
rewriting the `next` field of every guest-memory descriptor, so `next`
is never used to select the following entry. Second conjunct: a
successful `get_indirect` has consumed exactly the entries at byte
offsets `0*16, 1*16, ..., (m-1)*16` from the table base, in order,
where every consumed entry but the last carries NEXT and the last one
does not — traversal continues to the next sequential entry exactly
when the current one has NEXT set. -/
theorem get_indirect_sequential :
    (∀ (g : Guest) (f : Nat → Nat) (cap : Nat) (iov : List Iovec)
        (o n : Nat) (ind : VRingDesc),
      get_indirect { g with mem := fun a => { g.mem a with next := f a } }
          cap iov o n ind
        = get_indirect g cap iov o n ind) ∧
    (∀ (g : Guest) (cap : Nat) (iov : List Iovec) (o n : Nat)
        (ind : VRingDesc) (iov2 : List Iovec) (o2 n2 : Nat),
      get_indirect g cap iov o n ind = .ok iov2 o2 n2 →
      ∃ m, 1 ≤ m ∧ m ≤ ind.len / 16 ∧
        iov2 = iov ++ (List.range m).map (fun k =>
          ⟨(g.mem (ind.addr + k * 16)).addr,
           (g.mem (ind.addr + k * 16)).len,
           (g.mem (ind.addr + k * 16)).fWrite⟩) ∧
        (∀ k, k + 1 < m → (g.mem (ind.addr + k * 16)).fNext = true) ∧
        (g.mem (ind.addr + (m - 1) * 16)).fNext = false) := by
  constructor
  · intro g f cap iov o n ind
    unfold get_indirect
    by_cases h16 : ind.len % 16 ≠ 0
    · rw [if_pos h16, if_pos h16]
    · rw [if_neg h16, if_neg h16]
      by_cases hbig : 65536 < ind.len / 16
      · rw [if_pos hbig, if_pos hbig]
      · rw [if_neg hbig, if_neg hbig]
        exact giLoop_next_free g f ind.addr (ind.len / 16) cap
          (ind.len / 16 + 1) 0 iov o n (by omega)
  · intro g cap iov o n ind iov2 o2 n2 heq
    unfold get_indirect at heq
    by_cases h16 : ind.len % 16 ≠ 0
    · rw [if_pos h16] at heq; exact absurd heq (by simp)
    · rw [if_neg h16] at heq
      by_cases hbig : 65536 < ind.len / 16
      · rw [if_pos hbig] at heq; exact absurd heq (by simp)
      · rw [if_neg hbig] at heq
        obtain ⟨m, hm1, hm2, hm3, hm4, hm5⟩ :=
          giLoop_ok_sequential g ind.addr (ind.len / 16) cap
            (ind.len / 16 + 1) 0 iov o n iov2 o2 n2 (by omega) heq
        refine ⟨m, by omega, hm2, ?_, fun k hk => hm4 k (by omega) hk, hm5⟩
        rw [hm3, List.range_eq_range']
        simp [Nat.sub_zero]

/-- Theorem `get_indirect_sequential` applied at a concrete two-entry table. -/
theorem get_indirect_sequential_witness :
    ∃ m, 1 ≤ m ∧ m ≤ wIndC9.len / 16 ∧
      [(⟨100, 32, false⟩ : Iovec), ⟨200, 64, true⟩]
        = [] ++ (List.range m).map (fun k =>
          ⟨(wGuestC9.mem (wIndC9.addr + k * 16)).addr,
           (wGuestC9.mem (wIndC9.addr + k * 16)).len,
           (wGuestC9.mem (wIndC9.addr + k * 16)).fWrite⟩) ∧
      (∀ k, k + 1 < m → (wGuestC9.mem (wIndC9.addr + k * 16)).fNext = true) ∧
      (wGuestC9.mem (wIndC9.addr + (m - 1) * 16)).fNext = false :=
  get_indirect_sequential.2 wGuestC9 4 [] 0 0 wIndC9
    [⟨100, 32, false⟩, ⟨200, 64, true⟩] 1 1
    (by simp [get_indirect, giLoop, wGuestC9, wIndC9])
